import Mathlib

/-!
Verification of the osprey tagged-SQL-file parser and migration runner.

The parser (`src/sql_file.rs`) is embedded shallowly: a line is a `List Char`
(Rust `&str` sliced on `'\n'`), the parse loop `SQLFile::new_from_string` is a
structurally recursive function over the list of lines, and the single source
of a possible Rust panic (`chars().nth(i).unwrap()` in `FileLine::get_tag_name`)
is made explicit by an outer `Option` layer: `none` models a panic, `some r`
models a normal return of `r`.

Machine strings are compared byte-for-byte in Rust; since every pattern the
code searches for (`"--"`, `"tag:"`, `';'`, `'\n'`) is ASCII and ASCII bytes
never occur inside a multi-byte UTF-8 encoding, byte-level prefix/containment
tests coincide with the char-level tests used here.  Byte positions (which the
code mixes with char positions inside `get_tag_name`) are recovered through
`utf8Len`.
-/

/-- Rust `char::is_whitespace`: the Unicode `White_Space` property. -/
def isRustWs (c : Char) : Bool :=
  c.toNat = 0x09 || c.toNat = 0x0A || c.toNat = 0x0B || c.toNat = 0x0C ||
  c.toNat = 0x0D || c.toNat = 0x20 || c.toNat = 0x85 || c.toNat = 0xA0 ||
  c.toNat = 0x1680 || (0x2000 ≤ c.toNat && c.toNat ≤ 0x200A) ||
  c.toNat = 0x2028 || c.toNat = 0x2029 || c.toNat = 0x202F ||
  c.toNat = 0x205F || c.toNat = 0x3000

/-- Remove trailing Rust whitespace (`str::trim_end`). -/
def trimEnd (l : List Char) : List Char :=
  (l.reverse.dropWhile isRustWs).reverse

/-- Rust `str::trim`: strip leading and trailing whitespace. -/
def rustTrim (l : List Char) : List Char :=
  (trimEnd l).dropWhile isRustWs

/-- Char-level prefix test (`str::starts_with` for an ASCII pattern). -/
def leadsList : List Char → List Char → Bool
  | [], _ => true
  | _ :: _, [] => false
  | a :: as, b :: bs => a = b && leadsList as bs

/-- Char index of the first occurrence of `pat` (`str::match_indices` gives the
byte position of the same occurrence; see `utf8Len`). -/
def firstIdxOf (pat : List Char) : List Char → Option Nat
  | [] => none
  | l@(_ :: rest) =>
    if leadsList pat l then some 0
    else (firstIdxOf pat rest).map (· + 1)

/-- Byte size of one char under UTF-8 (Rust `char::len_utf8`). -/
def utf8SizeC (c : Char) : Nat :=
  if c.toNat < 0x80 then 1
  else if c.toNat < 0x800 then 2
  else if c.toNat < 0x10000 then 3
  else 4

/-- Byte length of a char sequence under UTF-8 (Rust `str::len`). -/
def utf8Len (l : List Char) : Nat := (l.map utf8SizeC).sum

/-- UTF-8 encoding of one char, as byte values. -/
def utf8EncodeChar (c : Char) : List Nat :=
  let n := c.toNat
  if n < 0x80 then [n]
  else if n < 0x800 then
    [0xC0 ||| (n >>> 6), 0x80 ||| (n &&& 0x3F)]
  else if n < 0x10000 then
    [0xE0 ||| (n >>> 12), 0x80 ||| ((n >>> 6) &&& 0x3F), 0x80 ||| (n &&& 0x3F)]
  else
    [0xF0 ||| (n >>> 18), 0x80 ||| ((n >>> 12) &&& 0x3F),
     0x80 ||| ((n >>> 6) &&& 0x3F), 0x80 ||| (n &&& 0x3F)]

/-- UTF-8 byte sequence of a char list (the bytes a Rust `String` holds). -/
def utf8Bytes (l : List Char) : List Nat := (l.map utf8EncodeChar).flatten

/-! SHA-256 (FIPS 180-4), over byte lists, words as `Nat` reduced mod `2^32`.
This embeds the `sha2` crate call in `QueryReadState::compute_hash`. -/

def w32 : Nat := 4294967296

def add32 (a b : Nat) : Nat := (a + b) % w32

def rotr32 (x n : Nat) : Nat := ((x >>> n) ||| (x <<< (32 - n))) % w32

def bsig0 (x : Nat) : Nat := rotr32 x 2 ^^^ rotr32 x 13 ^^^ rotr32 x 22

def bsig1 (x : Nat) : Nat := rotr32 x 6 ^^^ rotr32 x 11 ^^^ rotr32 x 25

def ssig0 (x : Nat) : Nat := rotr32 x 7 ^^^ rotr32 x 18 ^^^ (x >>> 3)

def ssig1 (x : Nat) : Nat := rotr32 x 17 ^^^ rotr32 x 19 ^^^ (x >>> 10)

def chFn (x y z : Nat) : Nat := (x &&& y) ^^^ ((x ^^^ 0xFFFFFFFF) &&& z)

def majFn (x y z : Nat) : Nat := (x &&& y) ^^^ (x &&& z) ^^^ (y &&& z)

def shaK : List Nat :=
  [1116352408, 1899447441, 3049323471, 3921009573, 961987163, 1508970993,
   2453635748, 2870763221, 3624381080, 310598401, 607225278, 1426881987,
   1925078388, 2162078206, 2614888103, 3248222580, 3835390401, 4022224774,
   264347078, 604807628, 770255983, 1249150122, 1555081692, 1996064986,
   2554220882, 2821834349, 2952996808, 3210313671, 3336571891, 3584528711,
   113926993, 338241895, 666307205, 773529912, 1294757372, 1396182291,
   1695183700, 1986661051, 2177026350, 2456956037, 2730485921, 2820302411,
   3259730800, 3345764771, 3516065817, 3600352804, 4094571909, 275423344,
   430227734, 506948616, 659060556, 883997877, 958139571, 1322822218,
   1537002063, 1747873779, 1955562222, 2024104815, 2227730452, 2361852424,
   2428436474, 2756734187, 3204031479, 3329325298]

def shaH0 : List Nat :=
  [1779033703, 3144134277, 1013904242, 2773480762,
   1359893119, 2600822924, 528734635, 1541459225]

/-- Big-endian bytes of `x`, `n` bytes wide. -/
def beBytes (n x : Nat) : List Nat :=
  (List.range n).map (fun i => (x >>> (8 * (n - 1 - i))) % 256)

/-- SHA-256 message padding: `0x80`, zeros to 56 mod 64, 64-bit bit length. -/
def shaPad (msg : List Nat) : List Nat :=
  let len := msg.length
  msg ++ [0x80] ++ List.replicate ((64 - (len + 9) % 64) % 64) 0 ++
    beBytes 8 (len * 8)

/-- First 16 schedule words of a 64-byte block, big-endian. -/
def blockWords (block : List Nat) : Array Nat :=
  ((List.range 16).map (fun i =>
    (block.getD (4 * i) 0) <<< 24 ||| (block.getD (4 * i + 1) 0) <<< 16 |||
    (block.getD (4 * i + 2) 0) <<< 8 ||| block.getD (4 * i + 3) 0)).toArray

/-- Extend the message schedule by `k` further words. -/
def extendSchedule : Nat → Array Nat → Array Nat
  | 0, w => w
  | Nat.succ k, w =>
    let t := w.size
    let x := add32 (add32 (ssig1 (w.getD (t - 2) 0)) (w.getD (t - 7) 0))
                   (add32 (ssig0 (w.getD (t - 15) 0)) (w.getD (t - 16) 0))
    extendSchedule k (w.push x)

/-- One SHA-256 compression round over state `[a,b,c,d,e,f,g,h]`. -/
def shaRound (st : List Nat) (kw : Nat × Nat) : List Nat :=
  match st with
  | [a, b, c, d, e, f, g, h] =>
    let t1 := add32 h (add32 (bsig1 e) (add32 (chFn e f g) (add32 kw.1 kw.2)))
    let t2 := add32 (bsig0 a) (majFn a b c)
    [add32 t1 t2, a, b, c, add32 d t1, e, f, g]
  | other => other

/-- Process one 64-byte block. -/
def shaBlock (h : List Nat) (block : List Nat) : List Nat :=
  let w := extendSchedule 48 (blockWords block)
  let st := (shaK.zip w.toList).foldl shaRound h
  (h.zip st).map (fun p => add32 p.1 p.2)

/-- Split into 64-byte chunks. -/
def chunks64 (l : List Nat) : List (List Nat) :=
  if h : l = [] then []
  else l.take 64 :: chunks64 (l.drop 64)
termination_by l.length
decreasing_by
  simp only [List.length_drop]
  exact Nat.sub_lt (List.length_pos.mpr h) (by decide)

/-- SHA-256 digest (32 bytes) of a byte list. -/
def sha256 (msg : List Nat) : List Nat :=
  (((chunks64 (shaPad msg)).foldl shaBlock shaH0).map (beBytes 4)).flatten

/-- One uppercase hexadecimal digit. -/
def hexDigit (n : Nat) : Char :=
  if n < 10 then Char.ofNat (48 + n) else Char.ofNat (55 + n)

/-- Uppercase hex of a byte list (Rust `format!("{:X}", digest)`: the
`generic-array` formatter emits two uppercase digits per byte). -/
def upperHex (bytes : List Nat) : List Char :=
  (bytes.map (fun b => [hexDigit (b / 16), hexDigit (b % 16)])).flatten

/-- Hash text the way `QueryReadState::compute_hash` does: SHA-256 of the
UTF-8 bytes, rendered as uppercase hex. -/
def hexDigestOf (s : List Char) : List Char := upperHex (sha256 (utf8Bytes s))

/-! Embedding of `src/sql_file.rs`. -/

inductive SyntaxErrorMessage where
  | NoTagNameGiven
  | QueryGivenNoTag
  | TagNameIncompleteQuery
  | NoQueryForTag
  | CouldNotParseTagName
  | CommentInQuery
  | EOFIncompleteQuery
  | NoQueriesFound
deriving DecidableEq, Repr

inductive SQLFileError where
  | SyntaxError (line : Nat) (m : SyntaxErrorMessage)
  | CouldNoReadFile
  | CouldNotGetFilename
deriving DecidableEq, Repr

/-- `QuerySet` of `sql_file.rs`: the finished statements of one tag and their
hash, both Rust `String`s modelled as char lists. -/
structure QuerySet where
  queries : List (List Char)
  hash : List Char
deriving DecidableEq, Repr

/-- `SQLFile`: file stem name plus the tag → `QuerySet` map.  The Rust
`HashMap` is modelled as an association list with unique keys; `mapInsert`
realises `HashMap::insert`'s overwrite semantics. -/
structure SQLFile where
  name : String
  query_hash_map : List (List Char × QuerySet)
deriving DecidableEq, Repr

/-- `HashMap::insert`: any earlier binding of the key is replaced. -/
def mapInsert (m : List (List Char × QuerySet)) (k : List Char) (v : QuerySet) :
    List (List Char × QuerySet) :=
  m.filter (fun p => ¬ p.1 = k) ++ [(k, v)]

/-- `HashMap::get`. -/
def mapFind (m : List (List Char × QuerySet)) (k : List Char) : Option QuerySet :=
  (m.find? (fun p => p.1 = k)).map (·.2)

/-- The marker `TAG_LINE = "tag:"`. -/
def tagMark : List Char := ['t', 'a', 'g', ':']

/-- `FileLine`: `line` is the trimmed text, `original_line` the raw text. -/
structure FileLine where
  line : List Char
  original_line : List Char
deriving DecidableEq, Repr

def FileLine.new (l : List Char) : FileLine :=
  { line := rustTrim l, original_line := l }

def FileLine.is_empty (f : FileLine) : Bool := f.line.isEmpty

def FileLine.is_tag_name (f : FileLine) : Bool :=
  leadsList ['-', '-'] f.line && (firstIdxOf tagMark f.line).isSome

def FileLine.is_comment_line (f : FileLine) : Bool :=
  leadsList ['-', '-'] f.line

def FileLine.is_query_string (f : FileLine) : Bool :=
  !f.is_empty && !f.is_comment_line

def FileLine.is_finishing_query (f : FileLine) : Bool :=
  f.is_query_string && f.line.getLast? = some ';'

/-- The `tag.push(self.line.chars().nth(i).unwrap())` loop: collect the chars
at the given positions; `none` models the panic of `unwrap` on a position at
or past the end of the char sequence. -/
def collectChars (l : List Char) : List Nat → Option (List Char)
  | [] => some []
  | i :: is =>
    match l.get? i with
    | none => none
    | some c =>
      match collectChars l is with
      | none => none
      | some cs => some (c :: cs)

/-- `FileLine::get_tag_name`.  The Rust code takes the BYTE index of the first
`"tag:"` occurrence, then walks byte positions `first_index + 4 .. line.len()`
calling `chars().nth(i).unwrap()` — a char-position read at a byte position.
`none` models the panic of that `unwrap` (the read past the end of the char
sequence); `some none` models `None`; `some (some t)` models `Some(t)`. -/
def FileLine.get_tag_name (f : FileLine) : Option (Option (List Char)) :=
  match firstIdxOf tagMark f.line with
  | none => some none
  | some k =>
    let firstIndex := utf8Len (f.line.take k)
    let b := firstIndex + 4
    let e := utf8Len f.line
    match collectChars f.line (List.range' b (e - b)) with
    | none => none
    | some cs =>
      let t := rustTrim cs
      if t.isEmpty then some none else some (some t)

/-- `QueryReadState`: statements finished so far, the in-progress statement,
and the hash (empty until `compute_hash`). -/
structure QueryReadState where
  queries : List (List Char)
  current_query : List Char
  hash : List Char
deriving DecidableEq, Repr

def QueryReadState.mk0 : QueryReadState := ⟨[], [], []⟩

def QueryReadState.is_empty (q : QueryReadState) : Bool := q.queries.length = 0

def QueryReadState.has_unfinished_query (q : QueryReadState) : Bool :=
  !q.current_query.isEmpty

/-- `add_query_string`: push `'\n'` first when the in-progress text is
non-empty, then append the new fragment. -/
def QueryReadState.add_query_string (q : QueryReadState) (st : List Char) :
    QueryReadState :=
  { q with current_query :=
      (if q.current_query.isEmpty then q.current_query
       else q.current_query ++ ['\n']) ++ st }

/-- `finish_query`: absorb the terminator line, push the completed statement,
clear the in-progress text. -/
def QueryReadState.finish_query (q : QueryReadState) (st : List Char) :
    QueryReadState :=
  let q' := q.add_query_string st
  { q' with queries := q'.queries ++ [q'.current_query], current_query := [] }

/-- All finished statements concatenated in order, no separator
(the `push_str` loop of `compute_hash`). -/
def concatAll (qs : List (List Char)) : List Char := qs.foldl (· ++ ·) []

/-- `compute_hash`: SHA-256 over the concatenation, uppercase hex. -/
def QueryReadState.compute_hash (q : QueryReadState) : QueryReadState :=
  { q with hash := hexDigestOf (concatAll q.queries) }

def QueryReadState.into_query_set (q : QueryReadState) : QuerySet :=
  ⟨q.queries, q.hash⟩

/-- The mutable locals of `SQLFile::new_from_string`'s loop. -/
structure PState where
  tag_name : List Char
  query_hash_map : List (List Char × QuerySet)
  current_query_set : QueryReadState
  line_count : Nat
deriving DecidableEq, Repr

def PState.init : PState := ⟨[], [], QueryReadState.mk0, 0⟩

/-- Outcome of one iteration of the parse loop. -/
inductive StepResult where
  | ok (s : PState)
  | err (e : SQLFileError)
  | crash
deriving DecidableEq, Repr

/-- One iteration of the `for line in lines` loop of
`SQLFile::new_from_string`.  Branch order, guard order, which branches reach
the `line_count += 1` at the loop's end (only blank and non-terminator
fragment lines do — every other branch `continue`s before it), and the
placement of the map insertion before `get_tag_name` all mirror the source.
`.crash` propagates the possible panic inside `get_tag_name`. -/
def stepLine (s : PState) (l : List Char) : StepResult :=
  let fl := FileLine.new l
  if fl.is_finishing_query then
    if s.tag_name.isEmpty then
      .err (.SyntaxError s.line_count .QueryGivenNoTag)
    else
      .ok { s with current_query_set :=
              s.current_query_set.finish_query fl.original_line }
  else if fl.is_tag_name then
    if s.current_query_set.has_unfinished_query then
      .err (.SyntaxError s.line_count .TagNameIncompleteQuery)
    else if !s.tag_name.isEmpty && s.current_query_set.is_empty then
      .err (.SyntaxError s.line_count .NoQueryForTag)
    else
      let s1 :=
        if !s.tag_name.isEmpty && !s.current_query_set.is_empty then
          { s with query_hash_map := (mapInsert s.query_hash_map s.tag_name
                     s.current_query_set.compute_hash.into_query_set),
                   current_query_set := QueryReadState.mk0 }
        else s
      match fl.get_tag_name with
      | none => .crash
      | some none => .err (.SyntaxError s.line_count .CouldNotParseTagName)
      | some (some t) => .ok { s1 with tag_name := t }
  else if fl.is_comment_line then
    if s.current_query_set.has_unfinished_query then
      .err (.SyntaxError s.line_count .CommentInQuery)
    else .ok s
  else
    let s1 :=
      if fl.is_query_string then
        { s with current_query_set :=
            s.current_query_set.add_query_string fl.original_line }
      else s
    .ok { s1 with line_count := s1.line_count + 1 }

/-- The code after the loop in `SQLFile::new_from_string`. -/
def finishParse (name : String) (s : PState) : Except SQLFileError SQLFile :=
  if s.current_query_set.has_unfinished_query then
    .error (.SyntaxError s.line_count .EOFIncompleteQuery)
  else if s.tag_name.isEmpty && s.current_query_set.is_empty then
    .error (.SyntaxError s.line_count .NoQueriesFound)
  else if !s.tag_name.isEmpty && s.current_query_set.is_empty then
    .error (.SyntaxError s.line_count .NoQueryForTag)
  else
    .ok ⟨name, mapInsert s.query_hash_map s.tag_name
                 s.current_query_set.compute_hash.into_query_set⟩

/-- Drive the loop over the remaining lines. `none` models a panic. -/
def runLines (name : String) :
    List (List Char) → PState → Option (Except SQLFileError SQLFile)
  | [], s => some (finishParse name s)
  | l :: rest, s =>
    match stepLine s l with
    | .ok s' => runLines name rest s'
    | .err e => some (.error e)
    | .crash => none

/-- Rust `str::split('\n')`: `n` separators give `n + 1` pieces, empties kept. -/
def splitOnNl : List Char → List (List Char)
  | [] => [[]]
  | c :: rest =>
    if c = '\n' then [] :: splitOnNl rest
    else
      match splitOnNl rest with
      | [] => [[c]]
      | h :: t => (c :: h) :: t

/-- `SQLFile::new_from_string`.  `none` models a panic (reachable only through
`FileLine::get_tag_name`); `some r` the returned `SQLFileResult`. -/
def new_from_string (name text : String) :
    Option (Except SQLFileError SQLFile) :=
  runLines name (splitOnNl text.data) PState.init

/-! Migration Runner (spec §4.3).  The repository's committed sources hold only
the record-storage layer (`Migrations`, `MigrationRecordStorage` in
`src/migrations.rs`); the Runner loop that consumes it is not under `src/`. -/

/-- A ledger record, as `MigrationInstance` of `src/migrations.rs`. -/
structure MigrationInstance where
  index : Int
  name : String
  tag : List Char
  hash : List Char
deriving DecidableEq, Repr

/-- `get_records_by_tag`: the ledger records whose tag matches. -/
def recordsByTag (ledger : List MigrationInstance) (tag : List Char) :
    List MigrationInstance :=
  ledger.filter (fun r => r.tag = tag)

/-- Modelled from the spec: one Runner iteration of §4.3 step (3)–(4), which
is missing from `src/` (only its storage callee `Migrations` is committed).
For a parsed file holding a group under the requested tag whose name is not
among the fetched records, execute the group's statements (counted, the
database being abstract) and append one ledger record; otherwise skip. -/
def runStep (fetched : List MigrationInstance) (tag : List Char)
    (acc : List MigrationInstance × Nat × Nat) (f : SQLFile) :
    List MigrationInstance × Nat × Nat :=
  match mapFind f.query_hash_map tag with
  | none => acc
  | some qs =>
    if fetched.any (fun r => r.name = f.name) then acc
    else (acc.1 ++ [⟨Int.ofNat acc.1.length, f.name, tag, qs.hash⟩],
          acc.2.1 + 1, acc.2.2 + qs.queries.length)

/-- Modelled from the spec: the Runner of §4.3.  Fetch the requested tag's
records once, then process the files in enumeration order; return the final
ledger, the count of groups applied and of statements executed. -/
def migrateRun (files : List SQLFile) (tag : List Char)
    (ledger : List MigrationInstance) : List MigrationInstance × Nat × Nat :=
  files.foldl (runStep (recordsByTag ledger tag) tag) (ledger, 0, 0)

/-! Helper lemmas about the Runner fold. -/

/-- The fold only ever appends to the ledger component. -/
theorem runFold_ledger_grows (fetched : List MigrationInstance)
    (tag : List Char) :
    ∀ (files : List SQLFile) (acc : List MigrationInstance × Nat × Nat),
      ∃ ext, (files.foldl (runStep fetched tag) acc).1 = acc.1 ++ ext := by
  intro files
  induction files with
  | nil => intro acc; exact ⟨[], by simp⟩
  | cons g gs ih =>
    intro acc
    obtain ⟨ext, hext⟩ := ih (runStep fetched tag acc g)
    rw [List.foldl_cons, hext]
    unfold runStep
    match h : mapFind g.query_hash_map tag with
    | none => exact ⟨ext, by simp⟩
    | some qs =>
      by_cases hany : fetched.any (fun r => decide (r.name = g.name))
      · exact ⟨ext, by simp [hany]⟩
      · refine ⟨⟨Int.ofNat acc.1.length, g.name, tag, qs.hash⟩ :: ext, ?_⟩
        simp only [hany]
        simp

/-- Ledger membership is preserved by the fold. -/
theorem runFold_ledger_mono (fetched : List MigrationInstance)
    (tag : List Char) (files : List SQLFile)
    (acc : List MigrationInstance × Nat × Nat) (r : MigrationInstance)
    (hr : r ∈ acc.1) :
    r ∈ (files.foldl (runStep fetched tag) acc).1 := by
  obtain ⟨ext, hext⟩ := runFold_ledger_grows fetched tag files acc
  rw [hext]
  exact List.mem_append_left _ hr

/-- After the fold, every file holding a group under the tag has a matching
record in the resulting ledger (either it was fetched, or it was appended). -/
theorem runFold_covers (fetched : List MigrationInstance) (tag : List Char) :
    ∀ (files : List SQLFile) (acc : List MigrationInstance × Nat × Nat),
      (∀ r ∈ fetched, r ∈ acc.1) → (∀ r ∈ fetched, r.tag = tag) →
      ∀ f ∈ files, (mapFind f.query_hash_map tag).isSome →
        ∃ r ∈ (files.foldl (runStep fetched tag) acc).1,
          r.tag = tag ∧ r.name = f.name := by
  intro files
  induction files with
  | nil => intro acc _ _ f hf; exact absurd hf (List.not_mem_nil f)
  | cons g gs ih =>
    intro acc hsub htag f hf hsome
    rw [List.foldl_cons]
    have hgrow : ∀ r ∈ acc.1, r ∈ (runStep fetched tag acc g).1 := by
      intro r hr
      unfold runStep
      match mapFind g.query_hash_map tag with
      | none => exact hr
      | some qs =>
        by_cases hany : fetched.any (fun r => decide (r.name = g.name))
        · simpa [hany] using hr
        · rw [Bool.not_eq_true] at hany
          simp only [hany, Bool.false_eq_true, if_false]
          exact List.mem_append_left _ hr
    rcases List.mem_cons.mp hf with hfg | hfgs
    · subst hfg
      by_cases hany : ∃ r ∈ fetched, r.name = f.name
      · obtain ⟨r, hrf, hrn⟩ := hany
        exact ⟨r, runFold_ledger_mono fetched tag gs _ r (hgrow r (hsub r hrf)),
               htag r hrf, hrn⟩
      · have happ : ∃ r ∈ (runStep fetched tag acc f).1,
            r.tag = tag ∧ r.name = f.name := by
          unfold runStep
          match hfind : mapFind f.query_hash_map tag with
          | none => rw [hfind] at hsome; exact absurd hsome (by simp)
          | some qs =>
            have hnoteq : fetched.any (fun r => decide (r.name = f.name)) = false := by
              rw [List.any_eq_false]
              intro r hr
              simp only [decide_eq_true_eq]
              exact fun hn => hany ⟨r, hr, hn⟩
            refine ⟨⟨Int.ofNat acc.1.length, f.name, tag, qs.hash⟩, ?_, rfl, rfl⟩
            simp [hnoteq]
        obtain ⟨r, hrmem, hrp⟩ := happ
        exact ⟨r, runFold_ledger_mono fetched tag gs _ r hrmem, hrp⟩
    · exact ih (runStep fetched tag acc g)
        (fun r hr => hgrow r (hsub r hr)) htag f hfgs hsome

/-- If every file with a group under the tag already matches a fetched record,
the fold changes nothing at all. -/
theorem runFold_skips_all (fetched : List MigrationInstance) (tag : List Char) :
    ∀ (files : List SQLFile) (acc : List MigrationInstance × Nat × Nat),
      (∀ f ∈ files, (mapFind f.query_hash_map tag).isSome →
        ∃ r ∈ fetched, r.name = f.name) →
      files.foldl (runStep fetched tag) acc = acc := by
  intro files
  induction files with
  | nil => intro acc _; rfl
  | cons g gs ih =>
    intro acc hall
    rw [List.foldl_cons]
    have hstep : runStep fetched tag acc g = acc := by
      unfold runStep
      match hfind : mapFind g.query_hash_map tag with
      | none => rfl
      | some qs =>
        obtain ⟨r, hrf, hrn⟩ := hall g (List.mem_cons_self g gs) (by simp [hfind])
        have : fetched.any (fun r => decide (r.name = g.name)) = true :=
          List.any_eq_true.mpr ⟨r, hrf, by simpa using hrn⟩
        simp [this]
    rw [hstep]
    exact ih acc (fun f hf => hall f (List.mem_cons_of_mem g hf))

/-- C4: Running the migration for a given tag twice against the same files and
the same ledger executes zero statements on the second run and reports zero
applied groups: after the first run every file name that carries the tag is
already present among that tag's ledger records. -/
theorem migrate_idempotent (files : List SQLFile) (tag : List Char)
    (ledger : List MigrationInstance) :
    (migrateRun files tag (migrateRun files tag ledger).1).2.1 = 0 ∧
    (migrateRun files tag (migrateRun files tag ledger).1).2.2 = 0 := by
  have hcover : ∀ f ∈ files, (mapFind f.query_hash_map tag).isSome →
      ∃ r ∈ recordsByTag (migrateRun files tag ledger).1 tag,
        r.name = f.name := by
    intro f hf hsome
    obtain ⟨r, hrmem, hrtag, hrname⟩ :=
      runFold_covers (recordsByTag ledger tag) tag files (ledger, 0, 0)
        (fun r hr => List.mem_of_mem_filter hr)
        (fun r hr => by simpa using List.of_mem_filter hr)
        f hf hsome
    exact ⟨r, List.mem_filter.mpr ⟨hrmem, by simpa using hrtag⟩, hrname⟩
  have hskip := runFold_skips_all
    (recordsByTag (migrateRun files tag ledger).1 tag) tag files
    ((migrateRun files tag ledger).1, 0, 0) hcover
  simp only [migrateRun] at hskip ⊢
  rw [hskip]
  exact ⟨rfl, rfl⟩

/-! Step-level lemmas about the parse loop. -/


/-- A tag-declaration line is a comment line, hence never a terminator. -/
theorem tag_line_not_finishing (l : List Char)
    (h : (FileLine.new l).is_tag_name = true) :
    (FileLine.new l).is_finishing_query = false := by
  have hc : (FileLine.new l).is_comment_line = true := by
    unfold FileLine.is_tag_name at h
    rw [Bool.and_eq_true] at h
    exact h.1
  unfold FileLine.is_finishing_query FileLine.is_query_string
  simp [hc]

/-- C5: parsing fails with `NoQueryForTag` exactly when an open tag is closed
with an empty list of finished statements: at a tag-declaration line (with no
statement mid-accumulation, else a different error fires first) precisely when
a tag is open and no statement was finished, and at end of file likewise; the
input `"\n-- tag:up"` fails with `NoQueryForTag`. -/
theorem noQueryForTag_iff :
    (∀ (s : PState) (l : List Char),
      (∃ n, stepLine s l = .err (.SyntaxError n .NoQueryForTag)) ↔
        ((FileLine.new l).is_tag_name = true ∧
         s.current_query_set.has_unfinished_query = false ∧
         s.tag_name ≠ [] ∧ s.current_query_set.queries = [])) ∧
    (∀ (name : String) (s : PState),
      (∃ n, finishParse name s = .error (.SyntaxError n .NoQueryForTag)) ↔
        (s.current_query_set.has_unfinished_query = false ∧
         s.tag_name ≠ [] ∧ s.current_query_set.queries = [])) ∧
    new_from_string "f" "\n-- tag:up" =
      some (.error (.SyntaxError 1 .NoQueryForTag)) := by
  have hqnil : ∀ q : QueryReadState, q.is_empty = true ↔ q.queries = [] := by
    intro q
    unfold QueryReadState.is_empty
    simp [List.length_eq_zero]
  refine ⟨?_, ?_, rfl⟩
  · intro s l
    constructor
    · rintro ⟨n, hn⟩
      unfold stepLine at hn
      by_cases h1 : (FileLine.new l).is_finishing_query = true
      · by_cases h2 : s.tag_name.isEmpty = true <;> simp [h1, h2] at hn
      · rw [Bool.not_eq_true] at h1
        by_cases h3 : (FileLine.new l).is_tag_name = true
        · by_cases h4 : s.current_query_set.has_unfinished_query = true
          · simp [h1, h3, h4] at hn
          · rw [Bool.not_eq_true] at h4
            by_cases h5 : s.tag_name = []
            · have h5' : s.tag_name.isEmpty = true := by simp [h5]
              rcases hgt : (FileLine.new l).get_tag_name with _ | ot
              · simp [h1, h3, h4, h5', hgt] at hn
              · rcases ot with _ | t <;> simp [h1, h3, h4, h5', hgt] at hn
            · by_cases h6 : s.current_query_set.is_empty = true
              · exact ⟨h3, h4, h5, (hqnil _).mp h6⟩
              · have h5' : s.tag_name.isEmpty = false := by simp [h5]
                rw [Bool.not_eq_true] at h6
                rcases hgt : (FileLine.new l).get_tag_name with _ | ot
                · simp [h1, h3, h4, h5', h6, hgt] at hn
                · rcases ot with _ | t <;>
                    simp [h1, h3, h4, h5', h6, hgt] at hn
        · rw [Bool.not_eq_true] at h3
          by_cases h6 : (FileLine.new l).is_comment_line = true
          · by_cases h7 : s.current_query_set.has_unfinished_query = true <;>
              simp [h1, h3, h6, h7] at hn
          · rw [Bool.not_eq_true] at h6
            simp [h1, h3, h6] at hn
    · rintro ⟨h3, h4, h5, h6⟩
      refine ⟨s.line_count, ?_⟩
      have h1 := tag_line_not_finishing l h3
      have hne : s.tag_name.isEmpty = false := by simp [h5]
      have hqe : s.current_query_set.is_empty = true := (hqnil _).mpr h6
      unfold stepLine
      simp [h1, h3, h4, hne, hqe]
  · intro name s
    constructor
    · rintro ⟨n, hn⟩
      unfold finishParse at hn
      by_cases h1 : s.current_query_set.has_unfinished_query = true
      · simp [h1] at hn
      · rw [Bool.not_eq_true] at h1
        by_cases h2 : s.tag_name = []
        · have h2' : s.tag_name.isEmpty = true := by simp [h2]
          by_cases h3 : s.current_query_set.is_empty = true <;>
            simp [h1, h2', h3] at hn
        · have h2' : s.tag_name.isEmpty = false := by simp [h2]
          by_cases h3 : s.current_query_set.is_empty = true
          · exact ⟨h1, h2, (hqnil _).mp h3⟩
          · rw [Bool.not_eq_true] at h3
            simp [h1, h2', h3] at hn
    · rintro ⟨h1, h2, h3⟩
      refine ⟨s.line_count, ?_⟩
      have hne : s.tag_name.isEmpty = false := by simp [h2]
      have hqe : s.current_query_set.is_empty = true := (hqnil _).mpr h3
      unfold finishParse
      simp [h1, hne, hqe]

/-- A comment line is never a terminator line. -/
theorem comment_line_not_finishing (l : List Char)
    (h : (FileLine.new l).is_comment_line = true) :
    (FileLine.new l).is_finishing_query = false := by
  unfold FileLine.is_finishing_query FileLine.is_query_string
  simp [h]

/-- C6: a terminator line (non-blank, non-comment, trimmed form ending in
`';'`) fails with `QueryGivenNoTag` when no tag is open; when a tag is open,
the line's original untrimmed text is appended (after a `'\n'` separator when
text was already accumulated) and the in-progress statement is finalized.  In
particular `"SELECT * FROM atable WHERE *;"` fails with `QueryGivenNoTag`. -/
theorem terminator_line_rules :
    (∀ (s : PState) (l : List Char),
      (FileLine.new l).is_finishing_query = true → s.tag_name = [] →
      stepLine s l = .err (.SyntaxError s.line_count .QueryGivenNoTag)) ∧
    (∀ (s : PState) (l : List Char),
      (FileLine.new l).is_finishing_query = true → s.tag_name ≠ [] →
      stepLine s l = .ok { s with current_query_set :=
        ⟨s.current_query_set.queries ++
           [(if s.current_query_set.current_query.isEmpty then
               s.current_query_set.current_query
             else s.current_query_set.current_query ++ ['\n']) ++ l],
         [], s.current_query_set.hash⟩ }) ∧
    new_from_string "f" "SELECT * FROM atable WHERE *;" =
      some (.error (.SyntaxError 0 .QueryGivenNoTag)) := by
  refine ⟨?_, ?_, rfl⟩
  · intro s l h1 h2
    have h2' : s.tag_name.isEmpty = true := by simp [h2]
    unfold stepLine
    simp [h1, h2']
  · intro s l h1 h2
    have h2' : s.tag_name.isEmpty = false := by simp [h2]
    unfold stepLine
    simp only [h1, h2', Bool.false_eq_true, if_false, if_true]
    unfold QueryReadState.finish_query QueryReadState.add_query_string
    rfl

/-- Witness for the terminator rules at concrete inputs. -/
theorem terminator_line_rules_witness :
    stepLine PState.init ['A', ';'] =
      .err (.SyntaxError 0 .QueryGivenNoTag) ∧
    stepLine ⟨['u'], [], QueryReadState.mk0, 0⟩ ['A', ';'] =
      .ok ⟨['u'], [], ⟨[['A', ';']], [], []⟩, 0⟩ :=
  ⟨terminator_line_rules.1 PState.init ['A', ';'] (by decide) rfl,
   (terminator_line_rules.2.1 ⟨['u'], [], QueryReadState.mk0, 0⟩ ['A', ';']
      (by decide) (by decide)).trans (by decide)⟩

/-- C7: a blank line never fails and contributes nothing to an in-progress
statement (only the line counter moves), even mid-accumulation; a (non-tag)
comment line mid-accumulation is the one that fails, with `CommentInQuery`. -/
theorem blank_line_rules :
    (∀ (s : PState) (l : List Char), rustTrim l = [] →
      stepLine s l = .ok { s with line_count := s.line_count + 1 }) ∧
    (∀ (s : PState) (l : List Char),
      (FileLine.new l).is_comment_line = true →
      (FileLine.new l).is_tag_name = false →
      s.current_query_set.has_unfinished_query = true →
      stepLine s l = .err (.SyntaxError s.line_count .CommentInQuery)) := by
  constructor
  · intro s l h
    unfold stepLine
    simp [FileLine.new, FileLine.is_finishing_query, FileLine.is_query_string,
      FileLine.is_empty, FileLine.is_tag_name, FileLine.is_comment_line, h,
      leadsList]
  · intro s l hc ht hu
    have hf := comment_line_not_finishing l hc
    unfold stepLine
    simp [hf, ht, hc, hu]

/-- Witness for the blank-line rules: a blank line inside an accumulating
statement is accepted unchanged, a comment there is rejected. -/
theorem blank_line_rules_witness :
    stepLine ⟨['u'], [], ⟨[], ['A'], []⟩, 3⟩ [' '] =
      .ok ⟨['u'], [], ⟨[], ['A'], []⟩, 4⟩ ∧
    stepLine ⟨['u'], [], ⟨[], ['A'], []⟩, 3⟩ ['-', '-', ' ', 'x'] =
      .err (.SyntaxError 3 .CommentInQuery) :=
  ⟨(blank_line_rules.1 ⟨['u'], [], ⟨[], ['A'], []⟩, 3⟩ [' ']
      (by decide)).trans (by decide),
   blank_line_rules.2 ⟨['u'], [], ⟨[], ['A'], []⟩, 3⟩ ['-', '-', ' ', 'x']
     (by decide) (by decide) (by decide)⟩

/-- C3 exhibit: the error's line number is not the 0-based index of the line
where the violation is detected.  On `"--c\nSELECT 1;"` the terminator with no
open tag sits at line index 1, but the error reports line 0: the loop's
`line_count += 1` sits after `continue` statements that skip it on comment,
tag and terminator lines. -/
theorem line_index_miscount :
    new_from_string "f" "--c\nSELECT 1;" =
      some (.error (.SyntaxError 0 .QueryGivenNoTag)) := rfl

/-- Join fragments with a single `'\n'` between consecutive entries. -/
def joinNl : List (List Char) → List Char
  | [] => []
  | [x] => x
  | x :: y :: ys => x ++ '\n' :: joinNl (y :: ys)

/-- Unfolding of `joinNl` on a cons cell. -/
theorem joinNl_cons (x : List Char) (rest : List (List Char)) :
    joinNl (x :: rest) = x ++ (rest.map (fun f => '\n' :: f)).flatten := by
  induction rest generalizing x with
  | nil => simp [joinNl]
  | cons y ys ih => simp [joinNl, ih y]

/-- Folding `add_query_string` from a non-empty in-progress text prepends a
`'\n'` before each further fragment. -/
theorem fold_add_nonempty (fs : List (List Char)) :
    ∀ (qs : List (List Char)) (hs c : List Char), c ≠ [] →
      fs.foldl QueryReadState.add_query_string ⟨qs, c, hs⟩ =
        ⟨qs, c ++ (fs.map (fun f => '\n' :: f)).flatten, hs⟩ := by
  induction fs with
  | nil => intro qs hs c _; simp
  | cons f fs ih =>
    intro qs hs c hc
    have hce : c.isEmpty = false := by simp [hc]
    rw [List.foldl_cons]
    have hstep : QueryReadState.add_query_string ⟨qs, c, hs⟩ f =
        ⟨qs, c ++ '\n' :: f, hs⟩ := by
      unfold QueryReadState.add_query_string
      simp [hce]
    rw [hstep, ih qs hs (c ++ '\n' :: f) (by simp)]
    simp

/-- C2: a multi-line statement is the fragment lines joined by single `'\n'`
separators with the terminator line's original untrimmed text appended last;
and the spec's literal example parses to exactly one tag `up` holding exactly
that one statement. -/
theorem multiline_statement_join :
    (∀ (qs : List (List Char)) (hs : List Char) (fs : List (List Char))
       (term : List Char), (∀ x ∈ fs, x ≠ []) →
      (fs.foldl QueryReadState.add_query_string ⟨qs, [], hs⟩).finish_query term
        = ⟨qs ++ [joinNl (fs ++ [term])], [], hs⟩) ∧
    new_from_string "f"
        "-- tag: up \nSELECT * FROM \natable WHERE \nacolumn=avalue;\n" =
      some (.ok ⟨"f", [("up".data,
        ⟨["SELECT * FROM \natable WHERE \nacolumn=avalue;".data],
         hexDigestOf "SELECT * FROM \natable WHERE \nacolumn=avalue;".data⟩)]⟩) := by
  constructor
  · intro qs hs fs term hfs
    cases fs with
    | nil =>
      unfold QueryReadState.finish_query QueryReadState.add_query_string
      simp [joinNl]
    | cons f fs' =>
      have hf : f ≠ [] := hfs f (List.mem_cons_self f fs')
      have hfe : f.isEmpty = false := by simp [hf]
      rw [List.foldl_cons]
      have hstep : QueryReadState.add_query_string ⟨qs, [], hs⟩ f =
          ⟨qs, f, hs⟩ := by
        unfold QueryReadState.add_query_string
        simp
      rw [hstep, fold_add_nonempty fs' qs hs f hf]
      unfold QueryReadState.finish_query QueryReadState.add_query_string
      have hne : (f ++ (fs'.map (fun x => '\n' :: x)).flatten).isEmpty = false := by
        simp [hf]
      simp only [hne, Bool.false_eq_true, if_false]
      rw [List.cons_append, joinNl_cons]
      simp
  · rfl

/-- Witness for the join rule at a concrete two-fragment statement. -/
theorem multiline_statement_join_witness :
    (([['S'], ['T']]).foldl QueryReadState.add_query_string
        ⟨[], [], []⟩).finish_query ['Z', ';'] =
      ⟨[['S', '\n', 'T', '\n', 'Z', ';']], [], []⟩ :=
  (multiline_statement_join.1 [] [] [['S'], ['T']] ['Z', ';']
    (by decide)).trans (by decide)

/-! Invariant machinery over the parse loop. -/

/-- Induction principle: an invariant preserved by every successful step and
carried into a successful finalization holds of any successful parse. -/
theorem runLines_inv (P : PState → Prop) (Q : SQLFile → Prop)
    (hstep : ∀ s l s', stepLine s l = .ok s' → P s → P s')
    (hfin : ∀ name s f, finishParse name s = .ok f → P s → Q f) :
    ∀ (ls : List (List Char)) (name : String) (s : PState) (f : SQLFile),
      runLines name ls s = some (.ok f) → P s → Q f := by
  intro ls
  induction ls with
  | nil =>
    intro name s f h hp
    unfold runLines at h
    exact hfin name s f (Option.some.inj h) hp
  | cons l rest ih =>
    intro name s f h hp
    unfold runLines at h
    cases hst : stepLine s l with
    | ok s' =>
      rw [hst] at h
      exact ih name s' f h (hstep s l s' hst hp)
    | err e => rw [hst] at h; simp at h
    | crash => rw [hst] at h; simp at h

/-- Everything a successful step can do to the tag map and the finished
statements: either both are left alone, or a statement ending in the
terminator line is finished, or (at a tag line) the accumulated non-empty
group is inserted into the map and the accumulator reset. -/
theorem stepLine_ok_shape (s : PState) (l : List Char) (s' : PState)
    (h : stepLine s l = .ok s') :
    (s'.query_hash_map = s.query_hash_map ∧
      (s'.current_query_set.queries = s.current_query_set.queries ∨
       ((FileLine.new l).is_finishing_query = true ∧
        s'.current_query_set.queries =
          s.current_query_set.queries ++
            [(if s.current_query_set.current_query.isEmpty then
                s.current_query_set.current_query
              else s.current_query_set.current_query ++ ['\n']) ++ l]))) ∨
    (s.current_query_set.is_empty = false ∧
     s'.query_hash_map = mapInsert s.query_hash_map s.tag_name
        s.current_query_set.compute_hash.into_query_set ∧
     s'.current_query_set.queries = []) := by
  unfold stepLine at h
  by_cases h1 : (FileLine.new l).is_finishing_query = true
  · by_cases h2 : s.tag_name.isEmpty = true
    · simp [h1, h2] at h
    · rw [Bool.not_eq_true] at h2
      simp only [h1, h2, if_true, Bool.false_eq_true, if_false] at h
      left
      have hs' := (StepResult.ok.inj h).symm
      subst hs'
      refine ⟨rfl, Or.inr ⟨h1, ?_⟩⟩
      unfold QueryReadState.finish_query QueryReadState.add_query_string
      rfl
  · rw [Bool.not_eq_true] at h1
    by_cases h3 : (FileLine.new l).is_tag_name = true
    · by_cases h4 : s.current_query_set.has_unfinished_query = true
      · simp [h1, h3, h4] at h
      · rw [Bool.not_eq_true] at h4
        by_cases h5 : s.tag_name.isEmpty = true
        · rcases hgt : (FileLine.new l).get_tag_name with _ | ot
          · simp [h1, h3, h4, h5, hgt] at h
          · rcases ot with _ | t
            · simp [h1, h3, h4, h5, hgt] at h
            · simp only [h1, h3, h4, h5, hgt, Bool.not_true, Bool.false_and,
                Bool.false_eq_true, if_false, if_true] at h
              have hs' := (StepResult.ok.inj h).symm
              subst hs'
              exact Or.inl ⟨rfl, Or.inl rfl⟩
        · rw [Bool.not_eq_true] at h5
          by_cases h6 : s.current_query_set.is_empty = true
          · simp [h1, h3, h4, h5, h6] at h
          · rw [Bool.not_eq_true] at h6
            rcases hgt : (FileLine.new l).get_tag_name with _ | ot
            · simp [h1, h3, h4, h5, h6, hgt] at h
            · rcases ot with _ | t
              · simp [h1, h3, h4, h5, h6, hgt] at h
              · simp only [h1, h3, h4, h5, h6, hgt, Bool.not_false,
                  Bool.true_and, Bool.and_self, Bool.false_eq_true, if_false,
                  if_true, Bool.and_true] at h
                have hs' := (StepResult.ok.inj h).symm
                subst hs'
                exact Or.inr ⟨h6, rfl, rfl⟩
    · rw [Bool.not_eq_true] at h3
      by_cases h6 : (FileLine.new l).is_comment_line = true
      · by_cases h7 : s.current_query_set.has_unfinished_query = true
        · simp [h1, h3, h6, h7] at h
        · simp only [h1, h3, h6, h7, Bool.false_eq_true, if_false,
            if_true] at h
          rw [Bool.not_eq_true] at h7
          have hs' := (StepResult.ok.inj h).symm
          subst hs'
          exact Or.inl ⟨rfl, Or.inl rfl⟩
      · rw [Bool.not_eq_true] at h6
        by_cases h8 : (FileLine.new l).is_query_string = true
        · simp only [h1, h3, h6, h8, Bool.false_eq_true, if_false,
            if_true] at h
          have hs' := (StepResult.ok.inj h).symm
          subst hs'
          exact Or.inl ⟨rfl, Or.inl rfl⟩
        · rw [Bool.not_eq_true] at h8
          simp only [h1, h3, h6, h8, Bool.false_eq_true, if_false] at h
          have hs' := (StepResult.ok.inj h).symm
          subst hs'
          exact Or.inl ⟨rfl, Or.inl rfl⟩

/-- A successful finalization inserts the accumulated non-empty group under
the current tag. -/
theorem finishParse_ok_shape (name : String) (s : PState) (f : SQLFile)
    (h : finishParse name s = .ok f) :
    s.current_query_set.is_empty = false ∧
    f.query_hash_map = mapInsert s.query_hash_map s.tag_name
      s.current_query_set.compute_hash.into_query_set := by
  unfold finishParse at h
  by_cases h1 : s.current_query_set.has_unfinished_query = true
  · simp [h1] at h
  · rw [Bool.not_eq_true] at h1
    by_cases h6 : s.current_query_set.is_empty = true
    · by_cases h5 : s.tag_name.isEmpty = true <;> simp [h1, h5, h6] at h
    · rw [Bool.not_eq_true] at h6
      refine ⟨h6, ?_⟩
      by_cases h5 : s.tag_name.isEmpty = true <;>
      · simp only [h1, h5, h6, Bool.and_false, Bool.and_true, Bool.false_eq_true,
          if_false] at h
        have hf := (Except.ok.inj h).symm
        subst hf
        rfl

/-- Membership after a map insertion. -/
theorem mem_mapInsert {m : List (List Char × QuerySet)} {k : List Char}
    {v : QuerySet} {e : List Char × QuerySet} (h : e ∈ mapInsert m k v) :
    e ∈ m ∨ e = (k, v) := by
  unfold mapInsert at h
  rcases List.mem_append.mp h with hl | hr
  · exact Or.inl (List.mem_of_mem_filter hl)
  · exact Or.inr (List.mem_singleton.mp hr)

/-- The hash invariant: every stored group's hash is the digest of its
statements' concatenation. -/
def hashOk (m : List (List Char × QuerySet)) : Prop :=
  ∀ e ∈ m, e.2.hash = hexDigestOf (concatAll e.2.queries)

/-- Inserting a freshly hashed group preserves the hash invariant. -/
theorem hashOk_insert {m : List (List Char × QuerySet)} (k : List Char)
    (q : QueryReadState) (h : hashOk m) :
    hashOk (mapInsert m k q.compute_hash.into_query_set) := by
  intro e he
  rcases mem_mapInsert he with hm | hkv
  · exact h e hm
  · subst hkv
    rfl

/-- C1: in every successfully parsed file, every tag's group hash equals the
uppercase-hex SHA-256 digest of the concatenation of the group's finished
statements, in completion order, with no separator. -/
theorem group_hash_is_digest (name text : String) (f : SQLFile)
    (h : new_from_string name text = some (.ok f)) :
    ∀ e ∈ f.query_hash_map, e.2.hash = hexDigestOf (concatAll e.2.queries) := by
  have := runLines_inv (fun s => hashOk s.query_hash_map)
    (fun f => ∀ e ∈ f.query_hash_map,
      e.2.hash = hexDigestOf (concatAll e.2.queries))
    (fun s l s' hst hp => by
      rcases stepLine_ok_shape s l s' hst with ⟨hm, _⟩ | ⟨_, hm, _⟩
      · rw [hm]; exact hp
      · rw [hm]; exact hashOk_insert _ _ hp)
    (fun name s f hfin hp => by
      obtain ⟨_, hm⟩ := finishParse_ok_shape name s f hfin
      rw [hm]
      exact hashOk_insert _ _ hp)
    (splitOnNl text.data) name PState.init f h
  exact this (by intro e he; exact absurd he (List.not_mem_nil e))

/-- Witness for the hash claim on a concrete one-statement file. -/
theorem group_hash_is_digest_witness :
    (("up".data, (⟨["A;".data], hexDigestOf "A;".data⟩ : QuerySet)) ∈
      (SQLFile.mk "f" [("up".data, ⟨["A;".data], hexDigestOf "A;".data⟩)]).query_hash_map) ∧
    (⟨["A;".data], hexDigestOf "A;".data⟩ : QuerySet).hash =
      hexDigestOf (concatAll (⟨["A;".data], hexDigestOf "A;".data⟩ : QuerySet).queries) :=
  ⟨List.mem_singleton.mpr rfl,
   group_hash_is_digest "f" "-- tag:up\nA;"
     (SQLFile.mk "f" [("up".data, ⟨["A;".data], hexDigestOf "A;".data⟩)])
     (by rfl)
     ("up".data, ⟨["A;".data], hexDigestOf "A;".data⟩)
     (List.mem_singleton.mpr rfl)⟩

/-- Inserting cannot create a duplicate key: the old binding is filtered out. -/
theorem mapInsert_keys_nodup {m : List (List Char × QuerySet)}
    (k : List Char) (v : QuerySet) (h : (m.map Prod.fst).Nodup) :
    ((mapInsert m k v).map Prod.fst).Nodup := by
  unfold mapInsert
  rw [List.map_append, List.nodup_append]
  refine ⟨(h.sublist ((List.filter_sublist m).map Prod.fst)),
    by simp, ?_⟩
  intro a ha hb
  simp only [List.map_cons, List.map_nil, List.mem_singleton] at hb
  subst hb
  obtain ⟨p, hp, hpa⟩ := List.mem_map.mp ha
  have := List.of_mem_filter hp
  rw [hpa] at this
  simp at this

/-- Looking up a key right after `mapInsert` yields the new value: last write
wins. -/
theorem mapFind_insert (m : List (List Char × QuerySet)) (k : List Char)
    (v : QuerySet) : mapFind (mapInsert m k v) k = some v := by
  unfold mapFind mapInsert
  have hnone : (m.filter (fun p => ¬ p.1 = k)).find?
      (fun p => p.1 = k) = none := by
    rw [List.find?_eq_none]
    intro p hp
    have := List.of_mem_filter hp
    simpa using this
  rw [List.find?_append, hnone]
  simp [List.find?]

/-- C8: in every successful parse the tag map's keys are pairwise distinct;
a lookup after insertion returns the inserted group (overwrite semantics);
and on a file declaring the same tag twice, the group finalized last is the
one stored ("last wins"): `"-- tag:up\nA;\n-- tag:up\nB;"` keeps only `B;`. -/
theorem tags_unique_last_wins :
    (∀ (name text : String) (f : SQLFile),
      new_from_string name text = some (.ok f) →
      (f.query_hash_map.map Prod.fst).Nodup) ∧
    (∀ (m : List (List Char × QuerySet)) (k : List Char) (v : QuerySet),
      mapFind (mapInsert m k v) k = some v) ∧
    new_from_string "f" "-- tag:up\nA;\n-- tag:up\nB;" =
      some (.ok ⟨"f", [("up".data, ⟨["B;".data], hexDigestOf "B;".data⟩)]⟩) := by
  refine ⟨?_, mapFind_insert, rfl⟩
  intro name text f h
  have := runLines_inv (fun s => (s.query_hash_map.map Prod.fst).Nodup)
    (fun f => (f.query_hash_map.map Prod.fst).Nodup)
    (fun s l s' hst hp => by
      rcases stepLine_ok_shape s l s' hst with ⟨hm, _⟩ | ⟨_, hm, _⟩
      · rw [hm]; exact hp
      · rw [hm]; exact mapInsert_keys_nodup _ _ hp)
    (fun name s f hfin hp => by
      obtain ⟨_, hm⟩ := finishParse_ok_shape name s f hfin
      rw [hm]
      exact mapInsert_keys_nodup _ _ hp)
    (splitOnNl text.data) name PState.init f h
  exact this List.nodup_nil

/-- Witness for the uniqueness part on a concrete parse. -/
theorem tags_unique_last_wins_witness :
    ((SQLFile.mk "f"
      [("up".data, ⟨["B;".data], hexDigestOf "B;".data⟩)]).query_hash_map.map
        Prod.fst).Nodup :=
  tags_unique_last_wins.1 "f" "-- tag:up\nA;\n-- tag:up\nB;"
    (SQLFile.mk "f" [("up".data, ⟨["B;".data], hexDigestOf "B;".data⟩)])
    (by rfl)

/-! Trimmed-suffix lemmas for the statement-shape invariant. -/

/-- `dropWhile` over an append whose left part is not fully dropped. -/
theorem dropWhile_append_ne (p : Char → Bool) (a b : List Char)
    (h : a.dropWhile p ≠ []) :
    (a ++ b).dropWhile p = a.dropWhile p ++ b := by
  induction a with
  | nil => exact absurd rfl h
  | cons c a' ih =>
    by_cases hc : p c = true
    · rw [List.cons_append, List.dropWhile_cons_of_pos hc,
        List.dropWhile_cons_of_pos hc]
      exact ih (by rwa [List.dropWhile_cons_of_pos hc] at h)
    · rw [Bool.not_eq_true] at hc
      rw [List.cons_append, List.dropWhile_cons_of_neg (by simp [hc]),
        List.dropWhile_cons_of_neg (by simp [hc]), List.cons_append]

/-- `dropWhile` over an append whose left part is fully dropped. -/
theorem dropWhile_append_nil (p : Char → Bool) (a b : List Char)
    (h : a.dropWhile p = []) :
    (a ++ b).dropWhile p = b.dropWhile p := by
  induction a with
  | nil => rfl
  | cons c a' ih =>
    by_cases hc : p c = true
    · rw [List.cons_append, List.dropWhile_cons_of_pos hc]
      exact ih (by rwa [List.dropWhile_cons_of_pos hc] at h)
    · rw [Bool.not_eq_true] at hc
      rw [List.dropWhile_cons_of_neg (by simp [hc])] at h
      exact absurd h (by simp)

/-- A non-empty `dropWhile` keeps the last element. -/
theorem getLast_dropWhile (p : Char → Bool) (m : List Char)
    (h : m.dropWhile p ≠ []) :
    (m.dropWhile p).getLast? = m.getLast? := by
  induction m with
  | nil => exact absurd rfl h
  | cons c m' ih =>
    by_cases hc : p c = true
    · rw [List.dropWhile_cons_of_pos hc] at h ⊢
      have hm' : m' ≠ [] := by
        intro he
        rw [he] at h
        exact h rfl
      rw [ih h]
      cases m' with
      | nil => exact absurd rfl hm'
      | cons d m'' => rw [List.getLast?_cons_cons]
    · rw [Bool.not_eq_true] at hc
      rw [List.dropWhile_cons_of_neg (by simp [hc])]

/-- `getLast?` of an append with a non-empty right part. -/
theorem getLast_append_right (a b : List Char) (h : b ≠ []) :
    (a ++ b).getLast? = b.getLast? := by
  induction a with
  | nil => rfl
  | cons c a' ih =>
    rw [List.cons_append]
    cases ha : a' ++ b with
    | nil =>
      rcases List.append_eq_nil.mp ha with ⟨_, hb⟩
      exact absurd hb h
    | cons d t =>
      rw [List.getLast?_cons_cons, ← ha, ih]

/-- Trailing trim distributes over an append with untrimmable right part. -/
theorem trimEnd_append (pre l : List Char) (h : trimEnd l ≠ []) :
    trimEnd (pre ++ l) = pre ++ trimEnd l := by
  unfold trimEnd at *
  have h' : l.reverse.dropWhile isRustWs ≠ [] := by
    intro he
    rw [he] at h
    exact h rfl
  rw [List.reverse_append, dropWhile_append_ne _ _ _ h',
    List.reverse_append, List.reverse_reverse]

/-- A statement's trimmed text ends in `';'`. -/
def endsSemi (q : List Char) : Prop := (rustTrim q).getLast? = some ';'

/-- Appending a chunk whose trimmed form is non-empty and ends in `';'`
yields a list whose trimmed form also ends in `';'`. -/
theorem endsSemi_append (pre l : List Char) (h1 : rustTrim l ≠ [])
    (h2 : (rustTrim l).getLast? = some ';') : endsSemi (pre ++ l) := by
  unfold endsSemi rustTrim at *
  have hte : trimEnd l ≠ [] := by
    intro he
    apply h1
    rw [he]
    rfl
  rw [trimEnd_append pre l hte]
  by_cases hp : pre.dropWhile isRustWs = []
  · rw [dropWhile_append_nil _ _ _ hp]
    exact h2
  · rw [dropWhile_append_ne _ _ _ hp, getLast_append_right _ _ hte,
      ← getLast_dropWhile isRustWs (trimEnd l) h1]
    exact h2

/-- A terminator line's trimmed text is non-empty and ends in `';'`. -/
theorem finishing_trim_facts (l : List Char)
    (h : (FileLine.new l).is_finishing_query = true) :
    rustTrim l ≠ [] ∧ (rustTrim l).getLast? = some ';' := by
  unfold FileLine.is_finishing_query FileLine.is_query_string
    FileLine.is_empty FileLine.is_comment_line FileLine.new at h
  simp only [Bool.and_eq_true, Bool.not_eq_true', decide_eq_true_eq] at h
  obtain ⟨⟨hne, _⟩, hlast⟩ := h
  exact ⟨by simpa [List.isEmpty_iff] using hne, hlast⟩

/-- A non-empty accumulator has a non-empty statement list. -/
theorem is_empty_false_queries (q : QueryReadState)
    (h : q.is_empty = false) : q.queries ≠ [] := by
  unfold QueryReadState.is_empty at h
  intro he
  rw [he] at h
  simp at h

/-- C10: in every successful parse, every group holds at least one statement
and every statement's trimmed text ends with `';'` (statements are only ever
pushed when a terminator line finalizes them, and groups only stored when
non-empty). -/
theorem groups_nonempty_statements_semicolon (name text : String)
    (f : SQLFile) (h : new_from_string name text = some (.ok f)) :
    ∀ e ∈ f.query_hash_map, e.2.queries ≠ [] ∧
      ∀ q ∈ e.2.queries, endsSemi q := by
  have := runLines_inv
    (fun s => (∀ e ∈ s.query_hash_map, e.2.queries ≠ [] ∧
                 ∀ q ∈ e.2.queries, endsSemi q) ∧
              (∀ q ∈ s.current_query_set.queries, endsSemi q))
    (fun f => ∀ e ∈ f.query_hash_map, e.2.queries ≠ [] ∧
                ∀ q ∈ e.2.queries, endsSemi q)
    (fun s l s' hst hp => by
      rcases stepLine_ok_shape s l s' hst with ⟨hm, hq⟩ | ⟨hne, hm, hq⟩
      · refine ⟨by rw [hm]; exact hp.1, ?_⟩
        rcases hq with hsame | ⟨hfin, happ⟩
        · rw [hsame]; exact hp.2
        · rw [happ]
          intro q hq
          rcases List.mem_append.mp hq with hold | hnew
          · exact hp.2 q hold
          · rw [List.mem_singleton] at hnew
            subst hnew
            obtain ⟨ht1, ht2⟩ := finishing_trim_facts l hfin
            exact endsSemi_append _ l ht1 ht2
      · refine ⟨?_, by rw [hq]; intro q hq'; exact absurd hq' (List.not_mem_nil q)⟩
        rw [hm]
        intro e he
        rcases mem_mapInsert he with hold | hnew
        · exact hp.1 e hold
        · subst hnew
          exact ⟨is_empty_false_queries _ hne, hp.2⟩)
    (fun name s f hfin hp => by
      obtain ⟨hne, hm⟩ := finishParse_ok_shape name s f hfin
      rw [hm]
      intro e he
      rcases mem_mapInsert he with hold | hnew
      · exact hp.1 e hold
      · subst hnew
        exact ⟨is_empty_false_queries _ hne, hp.2⟩)
    (splitOnNl text.data) name PState.init f h
  exact this ⟨fun e he => absurd he (List.not_mem_nil e),
              fun q hq => absurd hq (List.not_mem_nil q)⟩

/-- Witness for the group-shape claim on a concrete parse. -/
theorem groups_nonempty_statements_semicolon_witness :
    (⟨["A;".data], hexDigestOf "A;".data⟩ : QuerySet).queries ≠ [] ∧
    ∀ q ∈ (⟨["A;".data], hexDigestOf "A;".data⟩ : QuerySet).queries,
      endsSemi q :=
  groups_nonempty_statements_semicolon "f" "-- tag:up\nA;"
    (SQLFile.mk "f" [("up".data, ⟨["A;".data], hexDigestOf "A;".data⟩)])
    (by rfl)
    ("up".data, ⟨["A;".data], hexDigestOf "A;".data⟩)
    (List.mem_singleton.mpr rfl)

/-! Totality analysis of the parser: where the Rust code can panic. -/

/-- C9 exhibit: on a tag-declaration line holding a multi-byte character,
`get_tag_name` walks char positions up to the line's BYTE length and unwraps
`chars().nth(i)` past the end: `new_from_string` panics (modelled as `none`)
on `"-- tag:é"`. -/
theorem multibyte_tag_name_panics :
    new_from_string "f" "-- tag:é" = none := rfl

/-- For ASCII text the UTF-8 byte length equals the char count. -/
theorem utf8Len_ascii (l : List Char) (h : ∀ c ∈ l, c.toNat < 128) :
    utf8Len l = l.length := by
  induction l with
  | nil => rfl
  | cons c l' ih =>
    unfold utf8Len at ih ⊢
    rw [List.map_cons, List.sum_cons, List.length_cons,
      ih (fun c hc => h c (List.mem_cons_of_mem _ hc))]
    have hc := h c (List.mem_cons_self c l')
    unfold utf8SizeC
    rw [if_pos hc]
    omega

/-- Trimming only removes characters. -/
theorem mem_rustTrim {c : Char} {l : List Char} (h : c ∈ rustTrim l) :
    c ∈ l := by
  unfold rustTrim trimEnd at h
  have h1 := (List.dropWhile_sublist isRustWs).subset h
  have h2 := List.mem_reverse.mp h1
  have h3 := (List.dropWhile_sublist isRustWs).subset h2
  exact List.mem_reverse.mp h3

/-- Collecting chars at in-range positions cannot panic. -/
theorem collectChars_isSome (l : List Char) :
    ∀ is : List Nat, (∀ i ∈ is, i < l.length) →
      (collectChars l is).isSome := by
  intro is
  induction is with
  | nil => intro _; rfl
  | cons i is' ih =>
    intro h
    unfold collectChars
    have hlt := h i (List.mem_cons_self i is')
    rw [List.get?_eq_get hlt]
    obtain ⟨cs, hcs⟩ := Option.isSome_iff_exists.mp
      (ih (fun j hj => h j (List.mem_cons_of_mem _ hj)))
    rw [hcs]
    rfl

/-- Members of `List.range' b n` are below `b + n`. -/
theorem mem_range'_bound : ∀ (n b i : Nat), i ∈ List.range' b n → i < b + n := by
  intro n
  induction n with
  | zero => intro b i h; exact absurd h (List.not_mem_nil i)
  | succ n ih =>
    intro b i h
    rw [List.range'_succ] at h
    rcases List.mem_cons.mp h with hb | hr
    · omega
    · have := ih (b + 1) i hr
      omega

/-- On an all-ASCII trimmed line, `get_tag_name` cannot panic. -/
theorem get_tag_name_ascii (fl : FileLine)
    (h : ∀ c ∈ fl.line, c.toNat < 128) : fl.get_tag_name ≠ none := by
  unfold FileLine.get_tag_name
  cases hidx : firstIdxOf tagMark fl.line with
  | none => simp
  | some k =>
    have he : utf8Len fl.line = fl.line.length := utf8Len_ascii _ h
    have hcoll := collectChars_isSome fl.line
      (List.range' (utf8Len (fl.line.take k) + 4)
        (utf8Len fl.line - (utf8Len (fl.line.take k) + 4)))
      (by
        intro i hi
        by_cases hbe : utf8Len (fl.line.take k) + 4 ≤ utf8Len fl.line
        · have hb := mem_range'_bound _ _ i hi
          rw [he] at hb hbe
          omega
        · have h0 : utf8Len fl.line - (utf8Len (fl.line.take k) + 4) = 0 :=
            Nat.sub_eq_zero_of_le (by omega)
          rw [h0] at hi
          exact absurd hi (by simp [List.range'])
        )
    obtain ⟨cs, hcs⟩ := Option.isSome_iff_exists.mp hcoll
    dsimp only
    rw [hcs]
    by_cases ht : (rustTrim cs).isEmpty = true <;> simp [ht]

/-- On an all-ASCII line, one parse step cannot panic. -/
theorem stepLine_no_crash (s : PState) (l : List Char)
    (h : ∀ c ∈ l, c.toNat < 128) : stepLine s l ≠ .crash := by
  have hline : ∀ c ∈ (FileLine.new l).line, c.toNat < 128 := by
    intro c hc
    exact h c (mem_rustTrim hc)
  intro hcrash
  unfold stepLine at hcrash
  by_cases h1 : (FileLine.new l).is_finishing_query = true
  · by_cases h2 : s.tag_name.isEmpty = true <;> simp [h1, h2] at hcrash
  · rw [Bool.not_eq_true] at h1
    by_cases h3 : (FileLine.new l).is_tag_name = true
    · by_cases h4 : s.current_query_set.has_unfinished_query = true
      · simp [h1, h3, h4] at hcrash
      · rw [Bool.not_eq_true] at h4
        by_cases h5 : (!s.tag_name.isEmpty && s.current_query_set.is_empty) = true
        · simp [h1, h3, h4, h5] at hcrash
        · rw [Bool.not_eq_true] at h5
          rcases hgt : (FileLine.new l).get_tag_name with _ | ot
          · exact get_tag_name_ascii (FileLine.new l) hline hgt
          · rcases ot with _ | t <;>
              simp [h1, h3, h4, h5, hgt] at hcrash
    · rw [Bool.not_eq_true] at h3
      by_cases h6 : (FileLine.new l).is_comment_line = true
      · by_cases h7 : s.current_query_set.has_unfinished_query = true <;>
          simp [h1, h3, h6, h7] at hcrash
      · rw [Bool.not_eq_true] at h6
        simp [h1, h3, h6] at hcrash

/-- Splitting on newlines always yields at least one piece. -/
theorem splitOnNl_ne_nil (t : List Char) : splitOnNl t ≠ [] := by
  cases t with
  | nil => simp [splitOnNl]
  | cons c r =>
    unfold splitOnNl
    by_cases hc : c = '\n'
    · simp [hc]
    · simp only [hc, if_false]
      cases splitOnNl r <;> simp [hc]

/-- Every char of every line comes from the original text. -/
theorem mem_splitOnNl_sub (t : List Char) :
    ∀ l ∈ splitOnNl t, ∀ c ∈ l, c ∈ t := by
  induction t with
  | nil =>
    intro l hl c hc
    simp [splitOnNl] at hl
    subst hl
    exact absurd hc (List.not_mem_nil c)
  | cons d r ih =>
    intro l hl c hc
    unfold splitOnNl at hl
    by_cases hd : d = '\n'
    · simp only [hd, if_true, eq_self_iff_true, if_pos] at hl
      rcases List.mem_cons.mp hl with hnil | hr
      · subst hnil; exact absurd hc (List.not_mem_nil c)
      · exact List.mem_cons_of_mem d (ih l hr c hc)
    · cases hsp : splitOnNl r with
      | nil => exact absurd hsp (splitOnNl_ne_nil r)
      | cons hh tt =>
        simp only [hd, if_false, hsp] at hl
        rcases List.mem_cons.mp hl with hdh | htt
        · subst hdh
          rcases List.mem_cons.mp hc with hcd | hch
          · subst hcd; exact List.mem_cons_self c r
          · have hhm : hh ∈ splitOnNl r := by rw [hsp]; exact List.mem_cons_self hh tt
            exact List.mem_cons_of_mem d (ih hh hhm c hch)
        · have hlm : l ∈ splitOnNl r := by rw [hsp]; exact List.mem_cons_of_mem hh htt
          exact List.mem_cons_of_mem d (ih l hlm c hc)

/-- The parse loop over all-ASCII lines always returns. -/
theorem runLines_isSome (name : String) :
    ∀ (ls : List (List Char)) (s : PState),
      (∀ l ∈ ls, ∀ c ∈ l, c.toNat < 128) →
      (runLines name ls s).isSome := by
  intro ls
  induction ls with
  | nil => intro s _; rfl
  | cons l rest ih =>
    intro s h
    unfold runLines
    cases hst : stepLine s l with
    | ok s' => exact ih s' (fun l' hl' => h l' (List.mem_cons_of_mem _ hl'))
    | err e => rfl
    | crash =>
      exact absurd hst
        (stepLine_no_crash s l (h l (List.mem_cons_self l rest)))

/-- C9 (amended): on input text all of whose characters are ASCII,
`SQLFile::new_from_string` always returns a value (a parsed file or a syntax
error) and never panics.  (On non-ASCII tag-declaration lines it can panic —
see `multibyte_tag_name_panics`.) -/
theorem ascii_input_no_panic (name text : String)
    (h : ∀ c ∈ text.data, c.toNat < 128) :
    (new_from_string name text).isSome := by
  unfold new_from_string
  apply runLines_isSome
  intro l hl c hc
  exact h c (mem_splitOnNl_sub text.data l hl c hc)

/-- Witness: the ASCII totality theorem at a concrete input. -/
theorem ascii_input_no_panic_witness :
    (∀ c ∈ ("-- tag:up\nA;" : String).data, c.toNat < 128) ∧
    (new_from_string "f" "-- tag:up\nA;").isSome :=
  ⟨by decide, ascii_input_no_panic "f" "-- tag:up\nA;" (by decide)⟩
